import Mathlib

set_option maxRecDepth 4000

/-!
Verification development for the PantryPal core: a shallow embedding of
the recipe-to-pantry matching engine (`app/recipe_matcher.py`), the
recipe import service (`app/recipe_import_service.py`) and the household
deduplication migration (`app/database.py`), together with theorems that
settle the specified properties against the embedded code.

Conventions of the embedding:
  - Python strings are Lean `String`s; all string transformations are
    implemented over `List Char` by structural recursion so that concrete
    runs reduce inside the kernel; `str.lower` is modelled by the ASCII
    `Char.toLower` (every string the code and spec exercise is ASCII);
  - Python `set` values are modelled as `List`s considered up to
    membership (iteration order of a `set` is unspecified in Python, so a
    theorem that depends on which element a set-iteration yields first is
    stated for the list determinisation);
  - Python `datetime.utcnow()` is modelled by an explicit clock parameter;
  - database tables are modelled as lists of rows, and fallible Python
    code is modelled with `Option`/`Except`.
-/

/-! ## Character-list string primitives -/

/-- Python `str.strip()`: drop whitespace from both ends. -/
def trimChars (s : List Char) : List Char :=
  ((s.dropWhile Char.isWhitespace).reverse.dropWhile Char.isWhitespace).reverse

/-- Helper for `wordsChars`: accumulate the current (reversed) word. -/
def wordsAux (cur : List Char) : List Char → List (List Char)
  | [] => if cur.isEmpty then [] else [cur.reverse]
  | c :: rest =>
    if c.isWhitespace then
      if cur.isEmpty then wordsAux [] rest else cur.reverse :: wordsAux [] rest
    else
      wordsAux (c :: cur) rest

/-- Python `s.split()`: whitespace-delimited pieces, empties dropped. -/
def wordsChars (s : List Char) : List (List Char) :=
  wordsAux [] s

/-- Python `' '.join(ws)`. -/
def joinSpace (ws : List (List Char)) : List Char :=
  (ws.intersperse ([' '])).flatten

/-- Python `s.endswith(suffix)`. -/
def endsWithChars (s suffix : List Char) : Bool :=
  suffix.reverse.isPrefixOf s.reverse

/-- Python `s[:-n]` for `n > 0`: drop the last `n` characters. -/
def dropRightChars (s : List Char) (n : Nat) : List Char :=
  (s.reverse.drop n).reverse

/-- Python `needle in hay` on strings: substring containment (the empty
needle is contained in everything). -/
def hasSubstr (hay needle : List Char) : Bool :=
  match hay with
  | [] => needle.isEmpty
  | _ :: t => needle.isPrefixOf hay || hasSubstr t needle

/-! ## Ingredient name normalization (`RecipeMatcher._normalize_ingredient_name`) -/

/-- Word character in the sense of the regex `\b` boundary: `[a-zA-Z0-9_]`. -/
def isWordChar (c : Char) : Bool :=
  c.isAlpha || c.isDigit || c == '_'

/-- A `\b` boundary holds against the neighbouring character (or the edge
of the string). -/
def boundaryOk (c : Option Char) : Bool :=
  match c with
  | none => true
  | some c => !(isWordChar c)

/-- Fuel-driven scan that deletes every non-overlapping occurrence of the
word `w` that sits between `\b` boundaries, left to right, exactly as
`re.sub(rf'\b{word}\b', '', s)` does (boundaries are judged against the
original string, so `prev` tracks the original preceding character). -/
def removeWordFuel (w : List Char) : Nat → Option Char → List Char → List Char
  | 0, _, s => s
  | _ + 1, _, [] => []
  | fuel + 1, prev, c :: rest =>
    if boundaryOk prev && !w.isEmpty && w.isPrefixOf (c :: rest)
        && boundaryOk ((c :: rest).drop w.length).head? then
      removeWordFuel w fuel w.getLast? ((c :: rest).drop w.length)
    else
      c :: removeWordFuel w fuel (some c) rest

/-- Delete every whole-word occurrence of `w` from `s`. -/
def removeWord (s w : List Char) : List Char :=
  removeWordFuel w (s.length + 1) none s

/-- The fixed descriptor/qualifier vocabulary of
`_normalize_ingredient_name`, in source order. -/
def removeWordsList : List String :=
  [("fresh"), ("organic"), ("whole"), ("extra"), ("virgin"), ("raw"),
   ("free-range"), ("grass-fed"), ("wild-caught"), ("canned"), ("dried"),
   ("frozen"), ("chopped"), ("sliced"), ("diced"), ("minced"), ("crushed"),
   ("unsalted"), ("salted"), ("sweetened"), ("unsweetened"), ("low-fat"),
   ("fat-free"), ("reduced"), ("light"), ("heavy"), ("pure"), ("natural")]

/-- Strip the descriptor words, one `re.sub` pass per word, in source order. -/
def removeWordsChars (s : List Char) : List Char :=
  removeWordsList.foldl (fun acc w => removeWord acc w.data) s

/-- Skip up to and including the first `')'`; `none` when there is no
closing parenthesis ahead. -/
def dropThroughClose : List Char → Option (List Char)
  | [] => none
  | c :: rest => if c == ')' then some rest else dropThroughClose rest

/-- Fuel-driven deletion of every `\([^)]*\)` match, left to right,
modelling `re.sub(r'\([^)]*\)', '', s)`. -/
def stripParensFuel : Nat → List Char → List Char
  | 0, s => s
  | _ + 1, [] => []
  | fuel + 1, c :: rest =>
    if c == '(' then
      match dropThroughClose rest with
      | some rest' => stripParensFuel fuel rest'
      | none => c :: stripParensFuel fuel rest
    else
      c :: stripParensFuel fuel rest

/-- Delete parenthetical content from `s`. -/
def stripParensChars (s : List Char) : List Char :=
  stripParensFuel (s.length + 1) s

/-- Character-list core of `_normalize_ingredient_name`. -/
def normalizeChars (name : List Char) : List Char :=
  let n1 := trimChars (name.map Char.toLower)
  let n2 := removeWordsChars n1
  let n3 := stripParensChars n2
  let n4 := joinSpace (wordsChars n3)
  let n5 :=
    if endsWithChars n4 (['i', 'e', 's']) then dropRightChars n4 3 ++ ['y']
    else if endsWithChars n4 (['e', 's']) then dropRightChars n4 2
    else if endsWithChars n4 (['s']) && decide (n4.length > 3) then dropRightChars n4 1
    else n4
  trimChars n5

/-- The ingredient-name normalizer `_normalize_ingredient_name`: lowercase
and trim, strip the descriptor vocabulary as whole words, strip
parenthetical content, collapse whitespace, singularize
(`ies` to `y`, drop `es`, drop a trailing `s` when the string is longer
than 3), and trim. -/
def normalizeIngredientName (name : String) : String :=
  String.mk (normalizeChars name.data)

/-- ASCII lowercase of a string, modelling Python `str.lower()`. -/
def lowerStr (s : String) : String :=
  String.mk (s.data.map Char.toLower)

/-! ## Fuzzy matching (`RecipeMatcher._fuzzy_match_ingredient`) -/

/-- Python `needle in hay` on strings. -/
def occursIn (needle hay : String) : Bool :=
  hasSubstr hay.data needle.data

/-- Python `set(s.split())`, the word set of a string (determinised as the
list of distinct words in first-occurrence order). -/
def wordSet (s : String) : List (List Char) :=
  (wordsChars s.data).dedup

/-- Size of the intersection of two word sets. -/
def overlapCount (iw pw : List (List Char)) : Nat :=
  (iw.filter (fun w => pw.contains w)).length

/-- The 50% word-overlap test of the last fuzzy-match step:
`len(ingredient_words) > 0 and overlap / len(ingredient_words) >= 0.5`,
stated by cross-multiplication (`overlap / len ≥ 1/2` iff
`len ≤ 2·overlap`; the float comparison is exact at these magnitudes). -/
def wordOverlap (iw pw : List (List Char)) : Bool :=
  decide (0 < iw.length) && decide (iw.length ≤ 2 * overlapCount iw pw)

/-- The fuzzy matcher `_fuzzy_match_ingredient`: normalize, then try exact
membership, substring containment in both directions, and word overlap;
first hit wins, `none` otherwise.  The pantry set is determinised as a
list. -/
def fuzzyMatchIngredient (ingredientName : String) (pantry : List String) : Option String :=
  let n := normalizeIngredientName ingredientName
  if n ∈ pantry then some n
  else
    match pantry.find? (fun p => occursIn p n) with
    | some p => some p
    | none =>
      match pantry.find? (fun p => occursIn n p) with
      | some p => some p
      | none => pantry.find? (fun p => wordOverlap (wordSet n) (wordSet p))

/-! ## Pantry snapshot handling (`_normalize_pantry_items`, `_get_expiring_items`) -/

/-- A pantry item as consumed by the matcher: `product_name` and `name`
default to the empty string when absent (`item.get(..., '')`), and
`expiry_date` is an optional string. -/
structure PantryItem where
  productName : String := ""
  name : String := ""
  expiryDate : Option String := none

/-- Python `item.get('product_name', '') or item.get('name', '')`. -/
def itemName (it : PantryItem) : String :=
  if it.productName ≠ "" then it.productName else it.name

/-- The normalized pantry name set of `_normalize_pantry_items`
(determinised in first-occurrence order). -/
def normalizePantryItems (items : List PantryItem) : List String :=
  (items.filterMap (fun it =>
    if itemName it ≠ "" then some (normalizeIngredientName (itemName it)) else none)).dedup

/-- Gregorian leap year. -/
def isLeapYear (y : Nat) : Bool :=
  y % 4 == 0 && (y % 100 != 0 || y % 400 == 0)

/-- Length of a month, as `datetime` validates it. -/
def daysInMonth (y m : Nat) : Nat :=
  if m == 2 then (if isLeapYear y then 29 else 28)
  else if m == 4 || m == 6 || m == 9 || m == 11 then 30
  else 31

/-- Value of an ASCII digit. -/
def digitVal (c : Char) : Option Nat :=
  if c.isDigit then some (c.toNat - 48) else none

/-- Two ASCII digits as a number. -/
def digits2 (a b : Char) : Option Nat :=
  match digitVal a, digitVal b with
  | some x, some y => some (x * 10 + y)
  | _, _ => none

/-- Four ASCII digits as a number. -/
def digits4 (a b c d : Char) : Option Nat :=
  match digits2 a b, digits2 c d with
  | some x, some y => some (x * 100 + y)
  | _, _ => none

/-- The `YYYY-MM-DD` date form accepted by `datetime.fromisoformat` as the
code documents its input (`# Parse expiry date (ISO format: YYYY-MM-DD)`),
with `datetime`'s range validation (year at least 1, valid month, valid
day of month). -/
def parseIsoDate (s : String) : Option (Nat × Nat × Nat) :=
  match s.data with
  | [y1, y2, y3, y4, s1, m1, m2, s2, d1, d2] =>
    if s1 == '-' && s2 == '-' then
      match digits4 y1 y2 y3 y4, digits2 m1 m2, digits2 d1 d2 with
      | some y, some m, some d =>
        if decide (1 ≤ y) && decide (1 ≤ m) && decide (m ≤ 12) && decide (1 ≤ d)
            && decide (d ≤ daysInMonth y m) then
          some (y, m, d)
        else none
      | _, _, _ => none
    else none
  | _ => none

/-- Python `s.replace('Z', '')`: delete every `'Z'`. -/
def stripZ (s : String) : String :=
  String.mk (s.data.filter (fun c => !(c == 'Z')))

/-- Days since the epoch of a civil date (standard days-from-civil
computation); the order of dates coincides with the order of these
numbers, so `datetime` comparison and `timedelta(days=n)` shifts are
modelled on this scale. -/
def toRataDie : Nat × Nat × Nat → Int
  | (y, m, d) =>
    let y' : Int := if m ≤ 2 then (y : Int) - 1 else (y : Int)
    let era : Int := y' / 400
    let yoe : Int := y' - era * 400
    let mp : Int := ((m : Int) + 9) % 12
    let doy : Int := (153 * mp + 2) / 5 + (d : Int) - 1
    let doe : Int := yoe * 365 + yoe / 4 - yoe / 100 + doy
    era * 146097 + doe - 719468

/-- The expiring-name set of `_get_expiring_items`: an item contributes
its normalized name when its expiry string is present and non-empty,
parses (after deleting `'Z'`) as a valid date no later than
`today + daysThreshold`, and the item bears a non-empty name; parse
failures fall into the `except` arm and skip the item. `today` is the
current clock on the `toRataDie` day scale. -/
def getExpiringItems (today : Int) (items : List PantryItem) (daysThreshold : Int) : List String :=
  (items.filterMap (fun it =>
    match it.expiryDate with
    | none => none
    | some s =>
      if s = "" then none
      else
        match parseIsoDate (stripZ s) with
        | none => none
        | some d =>
          if toRataDie d ≤ today + daysThreshold then
            (if itemName it ≠ "" then some (normalizeIngredientName (itemName it)) else none)
          else none)).dedup

/-! ## Match calculation (`RecipeMatcher._match_recipe`) -/

/-- A recipe ingredient record `{name, quantity, unit}`; `none` models an
absent key. The entries appended to `missing_ingredients` and
`expiring_ingredients` carry exactly these fields, so the same type
serves for both. -/
structure RecipeIngredient where
  name : Option String := none
  quantity : Option String := none
  unit : Option String := none
deriving DecidableEq

/-- The match record `_match_recipe` returns. -/
structure MatchResult where
  matchPercentage : ℚ
  availableCount : Nat
  missingCount : Nat
  expiringCount : Nat
  missingIngredients : List RecipeIngredient
  expiringIngredients : List RecipeIngredient
  usesExpiringItems : Bool
deriving DecidableEq

/-- Round-half-to-even to an integer, the rounding of Python `round`. -/
def roundHalfEven (q : ℚ) : ℤ :=
  let f := ⌊q⌋
  if q - f < 1 / 2 then f
  else if 1 / 2 < q - f then f + 1
  else if f % 2 = 0 then f else f + 1

/-- Python `round(q, 2)` (float arithmetic modelled as exact rational
arithmetic). -/
def roundTo2 (q : ℚ) : ℚ :=
  (roundHalfEven (q * 100) : ℚ) / 100

/-- Accumulator of the per-ingredient loop of `_match_recipe`. -/
structure MatchAcc where
  availableCount : Nat
  missingIngredients : List RecipeIngredient
  expiringIngredients : List RecipeIngredient
deriving DecidableEq

/-- One iteration of the `_match_recipe` loop. `if matched:` tests Python
truthiness, so a returned empty string is treated as no match. -/
def matchStep (pantry expiring : List String) (acc : MatchAcc) (ing : RecipeIngredient) : MatchAcc :=
  let ingredientName := lowerStr (ing.name.getD "")
  match fuzzyMatchIngredient ingredientName pantry with
  | some matched =>
    if matched ≠ "" then
      { acc with
        availableCount := acc.availableCount + 1,
        expiringIngredients :=
          if matched ∈ expiring then acc.expiringIngredients ++ [ing]
          else acc.expiringIngredients }
    else
      { acc with missingIngredients := acc.missingIngredients ++ [ing] }
  | none => { acc with missingIngredients := acc.missingIngredients ++ [ing] }

/-- The match calculator `_match_recipe`: `ingredients` is
`recipe.ingredients` (`none` models a null column, defaulted by
`recipe.ingredients or []`). -/
def matchRecipe (ingredients : Option (List RecipeIngredient)) (pantry expiring : List String) :
    MatchResult :=
  let recipeIngredients := ingredients.getD []
  let total := recipeIngredients.length
  if total = 0 then
    { matchPercentage := 0, availableCount := 0, missingCount := 0, expiringCount := 0,
      missingIngredients := [], expiringIngredients := [], usesExpiringItems := false }
  else
    let acc := recipeIngredients.foldl (matchStep pantry expiring) ⟨0, [], []⟩
    { matchPercentage := roundTo2 ((acc.availableCount : ℚ) / (total : ℚ) * 100),
      availableCount := acc.availableCount,
      missingCount := acc.missingIngredients.length,
      expiringCount := acc.expiringIngredients.length,
      missingIngredients := acc.missingIngredients,
      expiringIngredients := acc.expiringIngredients,
      usesExpiringItems := decide (0 < acc.expiringIngredients.length) }

/-! ## Preference store (`_get_or_create_preference`, `_update_user_preference`) -/

/-- A `user_recipe_preferences` row.  Timestamps are abstract clock
values; `matchPercentage` is the stored `DECIMAL(5,2)` column (`none`
until the first match run). -/
structure UserRecipePreference where
  userId : String
  recipeId : String
  favorite : Bool := false
  notes : Option String := none
  timesCooked : Nat := 0
  lastCooked : Option Nat := none
  matchPercentage : Option ℚ := none
  usesExpiringItems : Bool := false
  expiringIngredientCount : Nat := 0
  availableIngredientCount : Nat := 0
  missingIngredientCount : Nat := 0
  missingIngredients : List RecipeIngredient := []
  expiringIngredients : List RecipeIngredient := []
  createdAt : Nat
  updatedAt : Nat
deriving DecidableEq

/-- A freshly created preference row (the ORM column defaults, with
`created_at = updated_at = now`). -/
def newPreference (now : Nat) (userId recipeId : String) : UserRecipePreference :=
  { userId := userId, recipeId := recipeId, createdAt := now, updatedAt := now }

/-- The field assignments of `_update_user_preference`: overwrite the
cached match fields and `updated_at`; `favorite`, `notes`, cook data and
`created_at` are untouched. -/
def applyMatchFields (now : Nat) (r : MatchResult) (p : UserRecipePreference) :
    UserRecipePreference :=
  { p with
    matchPercentage := some r.matchPercentage,
    availableIngredientCount := r.availableCount,
    missingIngredientCount := r.missingCount,
    expiringIngredientCount := r.expiringCount,
    missingIngredients := r.missingIngredients,
    expiringIngredients := r.expiringIngredients,
    usesExpiringItems := r.usesExpiringItems,
    updatedAt := now }

/-- `_update_user_preference` over the preference table:
`_get_or_create_preference` finds the first row for `(user_id, recipe_id)`
(creating one at the end of the table when absent, as `add` + `flush`
does), then the match fields are overwritten. -/
def updateUserPreference (now : Nat) (userId recipeId : String) (r : MatchResult) :
    List UserRecipePreference → List UserRecipePreference
  | [] => [applyMatchFields now r (newPreference now userId recipeId)]
  | p :: ps =>
    if p.userId = userId ∧ p.recipeId = recipeId then
      applyMatchFields now r p :: ps
    else
      p :: updateUserPreference now userId recipeId r ps

/-! ## Batch loops (`import_recipes`, `calculate_matches`)

The per-record body of each loop is modelled by what it produces for that
record: an outcome, or the exception it raises (`Except.error`).  The
embeddings reproduce the control flow around those bodies: the import
loop wraps each record in `try/except`, the match loop does not. -/

/-- Status returned by `_import_recipe` for one record. -/
inductive ImportStatus
  | imported
  | updated
  | skipped
deriving DecidableEq

/-- Result of one `_import_recipe` call. -/
structure ImportOutcome where
  status : ImportStatus
  imageDownloaded : Bool := false
deriving DecidableEq

/-- An entry of the `errors` list: `{'recipe': ..., 'error': ...}`. -/
structure ImportError where
  recipe : String
  error : String
deriving DecidableEq

/-- The statistics dict of `import_recipes`. -/
structure ImportStats where
  totalFetched : Nat
  importedCount : Nat
  updatedCount : Nat
  failedCount : Nat
  skippedCount : Nat
  imagesDownloaded : Nat
  errors : List ImportError
deriving DecidableEq

/-- One iteration of the `import_recipes` loop: a successful record bumps
the counter for its status, a raised exception is caught, counted in
`failed` and appended to `errors`, and the loop continues either way. -/
def importStep (st : ImportStats) : Except ImportError ImportOutcome → ImportStats
  | .ok o =>
    { st with
      importedCount := st.importedCount + (if o.status = .imported then 1 else 0),
      updatedCount := st.updatedCount + (if o.status = .updated then 1 else 0),
      skippedCount := st.skippedCount + (if o.status = .skipped then 1 else 0),
      imagesDownloaded := st.imagesDownloaded + (if o.imageDownloaded then 1 else 0) }
  | .error e => { st with failedCount := st.failedCount + 1, errors := st.errors ++ [e] }

/-- The per-record portion of `import_recipes`, after a successful fetch
of `records`. -/
def importRecipesRun (records : List (Except ImportError ImportOutcome)) : ImportStats :=
  records.foldl importStep
    { totalFetched := records.length, importedCount := 0, updatedCount := 0,
      failedCount := 0, skippedCount := 0, imagesDownloaded := 0, errors := [] }

/-- The statistics dict of `calculate_matches`. -/
structure MatchRunStats where
  totalRecipes : Nat
  recipesUpdated : Nat
  recipesWithMatches : Nat
  recipesUsingExpiring : Nat
deriving DecidableEq

/-- What one loop iteration of `calculate_matches` consumes from a
recipe's match result. -/
structure MatchOutcome where
  matchPercentage : ℚ
  usesExpiringItems : Bool
deriving DecidableEq

/-- Counter updates of one `calculate_matches` iteration
(`_update_user_preference` always returns `True`, so `recipes_updated`
always advances). -/
def calcStep (st : MatchRunStats) (m : MatchOutcome) : MatchRunStats :=
  { st with
    recipesUpdated := st.recipesUpdated + 1,
    recipesWithMatches := st.recipesWithMatches + (if 0 < m.matchPercentage then 1 else 0),
    recipesUsingExpiring := st.recipesUsingExpiring + (if m.usesExpiringItems then 1 else 0) }

/-- The recipe loop of `calculate_matches`: there is no `try/except`
around the body, so a raised exception propagates and the remaining
recipes are not processed. -/
def calcLoop (st : MatchRunStats) : List (Except String MatchOutcome) → Except String MatchRunStats
  | [] => .ok st
  | .error e :: _ => .error e
  | .ok m :: rest => calcLoop (calcStep st m) rest

/-- `calculate_matches` over the per-recipe results. -/
def calculateMatchesRun (results : List (Except String MatchOutcome)) :
    Except String MatchRunStats :=
  calcLoop
    { totalRecipes := results.length, recipesUpdated := 0, recipesWithMatches := 0,
      recipesUsingExpiring := 0 } results

/-! ## Recipe import lookup (`RecipeImportService._import_recipe`)

The importer manipulates a `recipes` table through the legacy
`Recipe.user_id` column it still assumes (the current `Recipe` model has
dropped that column in favour of `imported_by_user_id`, and declares the
household-wide unique constraint `uq_external_recipe` on
`(external_provider, external_id)`). -/

/-- A recipe row as the importer reads and writes it. -/
structure ImpRecipe where
  userId : String
  externalProvider : String
  externalId : String
  name : String
deriving DecidableEq

/-- `_find_existing_recipe`: filter by `user_id`, `external_provider`
and `external_id`, take the first row. -/
def findExistingRecipe (db : List ImpRecipe) (userId provider externalId : String) :
    Option ImpRecipe :=
  db.find? (fun r =>
    decide (r.userId = userId) && decide (r.externalProvider = provider)
      && decide (r.externalId = externalId))

/-- Apply `_update_recipe`'s content rewrite to the row
`_find_existing_recipe` returned. -/
def updateExistingRecipe (userId provider externalId name : String) :
    List ImpRecipe → List ImpRecipe
  | [] => []
  | r :: rs =>
    if r.userId = userId ∧ r.externalProvider = provider ∧ r.externalId = externalId then
      { r with name := name } :: rs
    else
      r :: updateExistingRecipe userId provider externalId name rs

/-- `_import_recipe` for one record `(provider, externalId, name)`
triggered by `userId`: update the row found by `_find_existing_recipe`,
or insert a new row. -/
def importRecord (db : List ImpRecipe) (userId provider externalId name : String) :
    List ImpRecipe :=
  match findExistingRecipe db userId provider externalId with
  | some _ => updateExistingRecipe userId provider externalId name db
  | none => db ++ [{ userId := userId, externalProvider := provider,
                     externalId := externalId, name := name }]

/-- The `uq_external_recipe` unique constraint declared on the `Recipe`
model: no two rows share an `(external_provider, external_id)` pair. -/
@[reducible]
def uniqueExternalKey (db : List ImpRecipe) : Prop :=
  (db.map (fun r => (r.externalProvider, r.externalId))).Nodup

/-! ## Shared-household deduplication (`database._run_shared_household_migration`, step 3)

The reconciliation pass works on a snapshot of the `recipes` table:
group the rows that share a non-null `(external_provider, external_id)`
key and have more than one member, order each group by `created_at`, keep
the first row, and for every other row re-home its preferences onto the
kept row (`ON CONFLICT (user_id, recipe_id) DO NOTHING`), delete its
remaining preferences, and delete the row. -/

/-- A `recipes` row as the migration reads it. -/
structure RecipeRow where
  rid : Nat
  externalProvider : Option String
  externalId : Option String
  createdAt : Nat
deriving DecidableEq

/-- The grouping key: present exactly when both columns are non-null. -/
def keyOf (r : RecipeRow) : Option (String × String) :=
  match r.externalProvider, r.externalId with
  | some p, some e => some (p, e)
  | _, _ => none

/-- Order on rows used by `ORDER BY created_at`. -/
def createdLE (a b : RecipeRow) : Prop :=
  a.createdAt ≤ b.createdAt

instance : DecidableRel createdLE := fun a b => Nat.decLe a.createdAt b.createdAt

instance : IsTotal RecipeRow createdLE := ⟨fun a b => Nat.le_total a.createdAt b.createdAt⟩

instance : IsTrans RecipeRow createdLE := ⟨fun _ _ _ => Nat.le_trans⟩

/-- The rows carrying key `k`, in table order. -/
def rowsWithKey (rs : List RecipeRow) (k : String × String) : List RecipeRow :=
  rs.filter (fun r => decide (keyOf r = some k))

/-- The rows carrying key `k`, ordered by `created_at`
(`array_agg(id ORDER BY created_at)`). -/
def sortedGroup (rs : List RecipeRow) (k : String × String) : List RecipeRow :=
  List.insertionSort createdLE (rowsWithKey rs k)

/-- The keys with more than one row (`GROUP BY ... HAVING COUNT(*) > 1`),
determinised in first-occurrence order. -/
def dupKeys (rs : List RecipeRow) : List (String × String) :=
  (rs.filterMap keyOf).dedup.filter (fun k => decide (2 ≤ (rowsWithKey rs k).length))

/-- The id groups the migration iterates: for each duplicated key, the
ids of its rows ordered by `created_at`; the head is kept, the tail
deleted. -/
def dupGroups (rs : List RecipeRow) : List (List Nat) :=
  (dupKeys rs).map (fun k => (sortedGroup rs k).map RecipeRow.rid)

/-- A `user_recipe_preferences` row as the migration moves it (`payload`
stands for the copied user fields: favorite, notes, cook data, cached
match fields). -/
structure PrefRow where
  userId : Nat
  recipeId : Nat
  payload : Nat
deriving DecidableEq

/-- Re-home the preferences of deleted recipe `delId` onto `keepId`: for
each such preference in table order, insert a copy pointing at `keepId`
unless a row for `(user_id, keepId)` already exists
(`ON CONFLICT DO NOTHING`), then delete every preference of `delId`. -/
def rehome (ps : List PrefRow) (delId keepId : Nat) : List PrefRow :=
  let movers := ps.filter (fun p => decide (p.recipeId = delId))
  let inserted := movers.foldl
    (fun acc m =>
      if acc.any (fun q => decide (q.userId = m.userId) && decide (q.recipeId = keepId)) then acc
      else acc ++ [{ m with recipeId := keepId }])
    ps
  inserted.filter (fun p => decide (¬p.recipeId = delId))

/-- Process one id group `keep :: dels` against the preference table. -/
def applyGroupPrefs (ps : List PrefRow) (g : List Nat) : List PrefRow :=
  match g with
  | [] => ps
  | keepId :: delIds => delIds.foldl (fun a d => rehome a d keepId) ps

/-- Delete the recipes whose ids are listed. -/
def deleteRecipes (rs : List RecipeRow) (dels : List Nat) : List RecipeRow :=
  dels.foldl (fun a d => a.filter (fun r => decide (¬r.rid = d))) rs

/-- The catalog state the migration transforms. -/
structure Catalog where
  recipes : List RecipeRow
  prefs : List PrefRow
deriving DecidableEq

/-- The deduplication pass: compute the duplicated groups from the
snapshot, then, group by group, re-home and delete preferences and delete
the duplicate recipes. -/
def runDedup (c : Catalog) : Catalog :=
  let gs := dupGroups c.recipes
  { recipes := gs.foldl (fun rs g => deleteRecipes rs (g.drop 1)) c.recipes,
    prefs := gs.foldl applyGroupPrefs c.prefs }

/-- The `UNIQUE(user_id, recipe_id)` invariant on preferences. -/
@[reducible]
def prefsUnique (ps : List PrefRow) : Prop :=
  (ps.map (fun p => (p.userId, p.recipeId))).Nodup

/-- Some preference row for `(u, rid)` exists. -/
def HasPref (ps : List PrefRow) (u rid : Nat) : Prop :=
  ∃ q ∈ ps, q.userId = u ∧ q.recipeId = rid

/-- The conclusion of the reconciliation claim for a catalog `c`, about
`runDedup c`: (1) for every key held by some row, exactly one row with
that key survives, namely one of minimum `created_at`; (2) every
preference that pointed at a deleted duplicate has a successor preference
of the same user on the group's kept row; (3) no surviving preference
points at a deleted recipe; (4) the `(user_id, recipe_id)` uniqueness
invariant still holds. -/
def DedupSpec (c : Catalog) : Prop :=
  (∀ k keep, (sortedGroup c.recipes k).head? = some keep →
    keep ∈ (runDedup c).recipes ∧
    (∀ r ∈ (runDedup c).recipes, keyOf r = some k → r = keep) ∧
    (∀ r ∈ c.recipes, keyOf r = some k → keep.createdAt ≤ r.createdAt)) ∧
  (∀ k keep dels, sortedGroup c.recipes k = keep :: dels →
    ∀ p ∈ c.prefs, (∃ d ∈ dels, p.recipeId = d.rid) →
      HasPref (runDedup c).prefs p.userId keep.rid) ∧
  (∀ p ∈ (runDedup c).prefs, ∀ k keep dels, sortedGroup c.recipes k = keep :: dels →
    ∀ d ∈ dels, ¬p.recipeId = d.rid) ∧
  prefsUnique (runDedup c).prefs

/-- Concrete pantry name set used by the spec's scenarios: the normalized
names of milk, eggs and flour. -/
def samplePantry : List String :=
  [("milk"), ("egg"), ("flour")]

/-- Concrete match result used to exercise the preference store. -/
def sampleMatchResult : MatchResult :=
  { matchPercentage := 75, availableCount := 3, missingCount := 1, expiringCount := 0,
    missingIngredients := [{ name := some ("Sugar") }], expiringIngredients := [],
    usesExpiringItems := false }

/-- The spec's three-ingredient scenario recipe. -/
def sampleThree : List RecipeIngredient :=
  [{ name := some ("Whole Milk") }, { name := some ("Eggs") }, { name := some ("Sugar") }]

/-- A four-ingredient recipe of which exactly three match the scenario
pantry. -/
def sampleFour : List RecipeIngredient :=
  [{ name := some ("Whole Milk") }, { name := some ("Eggs") }, { name := some ("Flour") },
    { name := some ("Sugar") }]

/-- Concrete catalog exercising the reconciliation pass: two rows share
the key `("mealie", "r1")` and carry preferences of two users. -/
def sampleCatalog : Catalog :=
  { recipes :=
      [{ rid := 1, externalProvider := some ("mealie"), externalId := some ("r1"),
         createdAt := 5 },
       { rid := 2, externalProvider := some ("mealie"), externalId := some ("r1"),
         createdAt := 3 },
       { rid := 3, externalProvider := none, externalId := none, createdAt := 1 }],
    prefs :=
      [{ userId := 10, recipeId := 1, payload := 7 },
       { userId := 10, recipeId := 2, payload := 8 },
       { userId := 11, recipeId := 1, payload := 9 }] }

/-! ## Helper lemmas -/

/-- Overwriting the match fields twice with the same data and clock is the
same as overwriting once. -/
theorem applyMatchFields_idem (now : Nat) (r : MatchResult) (p : UserRecipePreference) :
    applyMatchFields now r (applyMatchFields now r p) = applyMatchFields now r p := rfl

/-- The field assignments preserve the row identity. -/
theorem applyMatchFields_ids (now : Nat) (r : MatchResult) (p : UserRecipePreference) :
    (applyMatchFields now r p).userId = p.userId ∧
      (applyMatchFields now r p).recipeId = p.recipeId := ⟨rfl, rfl⟩

/-- On a non-empty ingredient list, the percentage field of the match
record is the rounded ratio of its own counts. -/
theorem matchPercentage_eq_formula (ings : List RecipeIngredient) (pantry expiring : List String)
    (h : ings ≠ []) :
    (matchRecipe (some ings) pantry expiring).matchPercentage =
      roundTo2 (((matchRecipe (some ings) pantry expiring).availableCount : ℚ) /
        (ings.length : ℚ) * 100) := by
  have hlen : ings.length ≠ 0 := fun hc => h (List.length_eq_zero.mp hc)
  simp only [matchRecipe, Option.getD_some, if_neg hlen]

/-! ## C2: idempotence of ingredient-name normalization -/

/-- C2 (counterexample): normalization is not idempotent on every string;
`"glasses"` normalizes to `"glass"`, which normalizes further to
`"glas"`. -/
theorem normalize_not_idempotent :
    normalizeIngredientName (normalizeIngredientName ("glasses")) ≠
      normalizeIngredientName ("glasses") := by decide

/-- C2 (amended): normalization is idempotent on the spec's tested
inputs (the documented examples and the scenario names), though not on
every string. -/
theorem normalize_idempotent_on_tested_inputs :
    ∀ x ∈ [("Fresh Tomatoes"), ("Whole Milk (2%)"), ("Extra Virgin Olive Oil"),
      ("milk"), ("egg"), ("flour"), ("Whole Milk"), ("Eggs"), ("Sugar")],
      normalizeIngredientName (normalizeIngredientName x) = normalizeIngredientName x := by
  decide

/-- C2 (witness): the amended statement applies to the first documented
example. -/
theorem normalize_idempotent_on_tested_inputs_witness :
    ("Fresh Tomatoes") ∈ [("Fresh Tomatoes"), ("Whole Milk (2%)"),
      ("Extra Virgin Olive Oil"), ("milk"), ("egg"), ("flour"), ("Whole Milk"),
      ("Eggs"), ("Sugar")] ∧
    normalizeIngredientName (normalizeIngredientName ("Fresh Tomatoes")) =
      normalizeIngredientName ("Fresh Tomatoes") :=
  ⟨by decide, normalize_idempotent_on_tested_inputs ("Fresh Tomatoes") (by decide)⟩

/-! ## C8: empty recipes never match -/

/-- C8: a recipe with an empty ingredient list yields, for every pantry
snapshot and expiring set, a zero percentage, zero counts, empty lists
and `uses_expiring_items = false`. -/
theorem matchRecipe_empty_recipe (pantry expiring : List String) :
    matchRecipe (some []) pantry expiring =
      { matchPercentage := 0, availableCount := 0, missingCount := 0, expiringCount := 0,
        missingIngredients := [], expiringIngredients := [], usesExpiringItems := false } := rfl

/-! ## C1: existing-recipe lookup key of the importer -/

/-- C1: the importer's lookup filters on the legacy `Recipe.user_id`
column besides `(provider, external_id)`, so the same external record,
when imported by two different users, produces two rows sharing the non-null
`(provider, external_id)` pair, violating the `uq_external_recipe`
constraint the `Recipe` model declares. -/
theorem import_by_two_users_duplicates_external_key :
    (importRecord (importRecord [] ("u1") ("mealie") ("ext-1") ("Pancakes"))
        ("u2") ("mealie") ("ext-1") ("Pancakes")).length = 2 ∧
    ¬uniqueExternalKey
      (importRecord (importRecord [] ("u1") ("mealie") ("ext-1") ("Pancakes"))
        ("u2") ("mealie") ("ext-1") ("Pancakes")) := by
  exact ⟨by decide, by decide⟩

/-! ## C5: idempotence of applying a match result -/

/-- C5 (counterexample): `_update_user_preference` stamps
`updated_at = utcnow()` on every call, so applying the same match result
for the same user and recipe a second time, at a later instant, leaves
the row different from the state after the first application. -/
theorem apply_match_result_second_call_differs :
    updateUserPreference 1 ("u1") ("r1") sampleMatchResult
        (updateUserPreference 0 ("u1") ("r1") sampleMatchResult []) ≠
      updateUserPreference 0 ("u1") ("r1") sampleMatchResult [] := by
  intro h
  exact absurd h (by decide)

/-- C5 (amended): with the clock held fixed, applying the same match
result twice for the same user and recipe is idempotent: every field,
`updated_at` included, matches the state after one application; in
general the second call differs only in `updated_at`. -/
theorem apply_match_result_idempotent_fixed_clock
    (now : Nat) (userId recipeId : String) (r : MatchResult)
    (ps : List UserRecipePreference) :
    updateUserPreference now userId recipeId r
        (updateUserPreference now userId recipeId r ps) =
      updateUserPreference now userId recipeId r ps := by
  induction ps with
  | nil =>
    simp only [updateUserPreference]
    rw [if_pos ⟨rfl, rfl⟩, applyMatchFields_idem]
  | cons p ps ih =>
    by_cases h : p.userId = userId ∧ p.recipeId = recipeId
    · simp only [updateUserPreference, if_pos h]
      rw [if_pos ((applyMatchFields_ids now r p).1 ▸ (applyMatchFields_ids now r p).2 ▸ h),
        applyMatchFields_idem]
    · simp only [updateUserPreference, if_neg h]
      rw [ih]

/-! ## C9: fuzzy matches come from the pantry -/

/-- C9: whenever the fuzzy matcher returns a name, that name is an
element of the pantry set it was matched against, so the later
expiring-set membership test inspects a genuine pantry name. -/
theorem fuzzy_match_mem_pantry (ingredientName : String) (pantry : List String)
    (m : String) (h : fuzzyMatchIngredient ingredientName pantry = some m) :
    m ∈ pantry := by
  simp only [fuzzyMatchIngredient] at h
  split at h
  next hmem =>
    rw [Option.some.injEq] at h
    subst h
    exact hmem
  next hmem =>
    split at h
    next p h2 =>
      rw [Option.some.injEq] at h
      subst h
      exact List.mem_of_find?_eq_some h2
    next h2 =>
      split at h
      next p h3 =>
        rw [Option.some.injEq] at h
        subst h
        exact List.mem_of_find?_eq_some h3
      next h3 =>
        exact List.mem_of_find?_eq_some h

/-- C9 (witness): the theorem applied to the egg lookup in the scenario
pantry. -/
theorem fuzzy_match_mem_pantry_witness : ("egg") ∈ samplePantry :=
  fuzzy_match_mem_pantry ("Eggs") samplePantry ("egg") (by decide)

/-! ## C10: ingredients normalizing to the empty string -/

/-- The empty needle is a substring of every haystack. -/
theorem hasSubstr_nil_needle (hay : List Char) : hasSubstr hay [] = true := by
  cases hay with
  | nil => rfl
  | cons c t => rfl

/-- A non-empty string has non-empty character data. -/
theorem data_isEmpty_false_of_ne (p : String) (hp : p ≠ ("")) : p.data.isEmpty = false := by
  cases hd : p.data with
  | nil => exact absurd (String.ext (hd.trans rfl)) hp
  | cons c t => rfl

/-- C10 (counterexample): a pantry whose only item is named `"Fresh"`
produces the non-empty pantry name set `{""}`; against it, the
ingredient `"Organic"` (which also normalizes to `""`) is found by the
exact-match step, but the returned empty string is falsy, so the
ingredient is counted missing, not available. -/
theorem empty_normalized_ingredient_counted_missing :
    normalizePantryItems [{ name := ("Fresh") }] ≠ [] ∧
    (matchRecipe (some [{ name := some ("Organic") }])
        (normalizePantryItems [{ name := ("Fresh") }]) []).availableCount = 0 ∧
    (matchRecipe (some [{ name := some ("Organic") }])
        (normalizePantryItems [{ name := ("Fresh") }]) []).missingCount = 1 := by
  refine ⟨by decide, by decide, by decide⟩

/-- C10 (amended): provided the non-empty pantry name set does not itself
contain the empty string, an ingredient whose name normalizes to the
empty string is always counted available: the reverse-partial-match step
returns the first pantry name, because the empty string is a substring of
every pantry name. -/
theorem empty_normalized_ingredient_counted_available
    (pantry expiring : List String) (ing : RecipeIngredient)
    (hne : pantry ≠ []) (hempty : ("") ∉ pantry)
    (hnorm : normalizeIngredientName (lowerStr (ing.name.getD (""))) = ("")) :
    (matchRecipe (some [ing]) pantry expiring).availableCount = 1 := by
  obtain ⟨q, rest, rfl⟩ : ∃ q rest, pantry = q :: rest := by
    cases pantry with
    | nil => exact absurd rfl hne
    | cons q rest => exact ⟨q, rest, rfl⟩
  have hqne : q ≠ ("") := fun hq' => hempty (hq' ▸ List.mem_cons_self q rest)
  have hfuzzy : fuzzyMatchIngredient (lowerStr (ing.name.getD (""))) (q :: rest) = some q := by
    simp only [fuzzyMatchIngredient, hnorm]
    rw [if_neg hempty]
    have h2 : (q :: rest).find? (fun p => occursIn p ("")) = none := by
      rw [List.find?_eq_none]
      intro p hp
      have hpne : p ≠ ("") := fun hpe => hempty (hpe ▸ hp)
      show ¬(occursIn p ("") = true)
      rw [show occursIn p ("") = p.data.isEmpty from rfl,
        data_isEmpty_false_of_ne p hpne]
      exact Bool.false_ne_true
    rw [h2]
    rw [List.find?_cons_of_pos _ (by
      show occursIn ("") q = true
      rw [show occursIn ("") q = hasSubstr q.data [] from rfl]
      exact hasSubstr_nil_needle q.data)]
  simp only [matchRecipe, Option.getD_some]
  rw [if_neg (by simp : ¬([ing].length = 0))]
  simp only [List.foldl_cons, List.foldl_nil, matchStep, hfuzzy]
  rw [if_pos hqne]

/-- C10 (witness): the amended statement applied to the scenario pantry
and the descriptor-only ingredient name `"Fresh"`. -/
theorem empty_normalized_ingredient_counted_available_witness :
    samplePantry ≠ [] ∧ ("") ∉ samplePantry ∧
    normalizeIngredientName (lowerStr ((some ("Fresh") : Option String).getD (""))) = ("") ∧
    (matchRecipe (some [{ name := some ("Fresh") }]) samplePantry []).availableCount = 1 :=
  ⟨by decide, by decide, by decide,
    empty_normalized_ingredient_counted_available samplePantry [] { name := some ("Fresh") }
      (by decide) (by decide) (by decide)⟩

/-! ## C6: the expiry window classifier -/

/-- C6: a name is in the expiring set exactly when some pantry item
bearing a (non-empty) name has a present, non-empty expiry string that
parses — after tolerating `'Z'` markers — as a valid date at most
`threshold` days after `today`, and the name is that item's normalized
name.  In particular an item with a missing or unparsable expiry date
never contributes, for any threshold, and never aborts the run (the
classifier is total). -/
theorem expiring_items_characterization
    (today : Int) (items : List PantryItem) (threshold : Int) (s : String) :
    s ∈ getExpiringItems today items threshold ↔
      ∃ it ∈ items, ∃ str d, it.expiryDate = some str ∧
        parseIsoDate (stripZ str) = some d ∧
        toRataDie d ≤ today + threshold ∧
        itemName it ≠ ("") ∧ s = normalizeIngredientName (itemName it) := by
  simp only [getExpiringItems, List.mem_dedup, List.mem_filterMap]
  constructor
  · rintro ⟨it, hit, hf⟩
    refine ⟨it, hit, ?_⟩
    split at hf
    next => cases hf
    next str hdate =>
      split at hf
      next => cases hf
      next hse =>
        split at hf
        next => cases hf
        next d hparse =>
          split at hf
          next hle =>
            split at hf
            next hn =>
              rw [Option.some.injEq] at hf
              exact ⟨str, d, hdate, hparse, hle, hn, hf.symm⟩
            next => cases hf
          next => cases hf
  · rintro ⟨it, hit, str, d, hdate, hparse, hle, hn, rfl⟩
    refine ⟨it, hit, ?_⟩
    have hse : ¬str = ("") := by
      intro h
      subst h
      rw [show stripZ ("") = ("") from rfl] at hparse
      cases hparse
    simp only [hdate]
    rw [if_neg hse]
    simp only [hparse]
    rw [if_pos hle, if_pos hn]

/-! ## C7: the match percentage formula -/

/-- C7: on every non-empty ingredient list the computed percentage is the
available/total ratio times 100, rounded to two decimals; in particular
the scenario recipes yield exactly 75 and exactly 66.67 against the
milk/egg/flour pantry (Python float arithmetic is modelled as exact
rational arithmetic with round-half-to-even). -/
theorem match_percentage_is_rounded_ratio :
    (∀ (ings : List RecipeIngredient) (pantry expiring : List String), ings ≠ [] →
      (matchRecipe (some ings) pantry expiring).matchPercentage =
        roundTo2 (((matchRecipe (some ings) pantry expiring).availableCount : ℚ) /
          (ings.length : ℚ) * 100)) ∧
    (matchRecipe (some sampleFour) samplePantry []).matchPercentage = 75 ∧
    (matchRecipe (some sampleThree) samplePantry []).matchPercentage = mkRat 6667 100 := by
  refine ⟨fun ings pantry expiring h => matchPercentage_eq_formula ings pantry expiring h,
    ?_, ?_⟩
  · have h := matchPercentage_eq_formula sampleFour samplePantry [] (by decide)
    rw [show (matchRecipe (some sampleFour) samplePantry []).availableCount = 3 from by decide,
      show (sampleFour.length : ℚ) = 4 from by norm_num [sampleFour]] at h
    rw [h]
    norm_num [roundTo2, roundHalfEven]
  · have h := matchPercentage_eq_formula sampleThree samplePantry [] (by decide)
    rw [show (matchRecipe (some sampleThree) samplePantry []).availableCount = 2 from by decide,
      show (sampleThree.length : ℚ) = 3 from by norm_num [sampleThree]] at h
    rw [h]
    norm_num [roundTo2, roundHalfEven, Rat.mkRat_eq_div]

/-- C7 (witness): the universal part applied to the four-ingredient
scenario recipe. -/
theorem match_percentage_is_rounded_ratio_witness :
    sampleFour ≠ [] ∧
    (matchRecipe (some sampleFour) samplePantry []).matchPercentage =
      roundTo2 (((matchRecipe (some sampleFour) samplePantry []).availableCount : ℚ) /
        (sampleFour.length : ℚ) * 100) :=
  ⟨by decide, match_percentage_is_rounded_ratio.1 sampleFour samplePantry [] (by decide)⟩

/-! ## C3: per-record failure policy of the two batch loops -/

/-- Fold invariant of the import loop: errors are counted and collected,
and every record lands in exactly one status counter, so the loop always
runs to the end of the record list. -/
theorem importStep_foldl_spec (records : List (Except ImportError ImportOutcome)) :
    ∀ st : ImportStats,
      (records.foldl importStep st).failedCount
          = st.failedCount + (records.filter (fun r => !r.isOk)).length ∧
      (records.foldl importStep st).errors
          = st.errors ++ records.filterMap
              (fun r => match r with | .error e => some e | .ok _ => none) ∧
      (records.foldl importStep st).importedCount + (records.foldl importStep st).updatedCount
          + (records.foldl importStep st).skippedCount + (records.foldl importStep st).failedCount
          = st.importedCount + st.updatedCount + st.skippedCount + st.failedCount
            + records.length := by
  induction records with
  | nil => intro st; simp
  | cons r rest ih =>
    intro st
    obtain ⟨ih1, ih2, ih3⟩ := ih (importStep st r)
    cases r with
    | ok o =>
      refine ⟨?_, ?_, ?_⟩
      · rw [List.foldl_cons, ih1]
        simp [importStep, Except.isOk, Except.toBool]
      · rw [List.foldl_cons, ih2]
        simp [importStep]
      · rw [List.foldl_cons, ih3]
        cases hs : o.status <;> simp [importStep, hs] <;> omega
    | error e =>
      refine ⟨?_, ?_, ?_⟩
      · rw [List.foldl_cons, ih1]
        simp [importStep, Except.isOk, Except.toBool]
        omega
      · rw [List.foldl_cons, ih2]
        simp [importStep]
      · rw [List.foldl_cons, ih3]
        simp [importStep]
        omega

/-- The match loop propagates the first raised exception: whatever
statistics have been accumulated, a failing recipe ends the run. -/
theorem calcLoop_error (e : String) (suf : List (Except String MatchOutcome)) :
    ∀ (pre : List (Except String MatchOutcome)) (st : MatchRunStats),
      (∀ r ∈ pre, r.isOk = true) →
      calcLoop st (pre ++ Except.error e :: suf) = Except.error e := by
  intro pre
  induction pre with
  | nil => intro st _; rfl
  | cons r rest ih =>
    intro st h
    cases r with
    | ok m => exact ih (calcStep st m) (fun x hx => h x (List.mem_cons_of_mem _ hx))
    | error e' =>
      have := h _ (List.mem_cons_self _ _)
      simp [Except.isOk, Except.toBool] at this

/-- C3 (counterexample): in a batch match run, a failure on the second
recipe ends the run as a propagated exception: no aggregate statistics
are produced, there is no error list, and the third (sibling) recipe is
never processed. -/
theorem match_run_error_aborts_siblings :
    calculateMatchesRun
      [Except.ok { matchPercentage := 75, usesExpiringItems := false },
        Except.error ("recipe 2 boom"),
        Except.ok { matchPercentage := 50, usesExpiringItems := true }] =
      Except.error ("recipe 2 boom") :=
  calcLoop_error ("recipe 2 boom") _ [Except.ok { matchPercentage := 75, usesExpiringItems := false }] _
    (by intro r hr; simp at hr; simp [hr, Except.isOk, Except.toBool])

/-- C3 (amended): during an import run each per-record failure is caught,
counted in `failed`, appended to the errors list, and never aborts the
sibling records (every record lands in a status counter); during a batch
match run there is no per-recipe error collection — the first failing
recipe aborts the remainder of the run. -/
theorem import_collects_errors_match_run_aborts :
    (∀ records : List (Except ImportError ImportOutcome),
      (importRecipesRun records).failedCount = (records.filter (fun r => !r.isOk)).length ∧
      (importRecipesRun records).errors
        = records.filterMap (fun r => match r with | .error e => some e | .ok _ => none) ∧
      (importRecipesRun records).importedCount + (importRecipesRun records).updatedCount
        + (importRecipesRun records).skippedCount + (importRecipesRun records).failedCount
        = records.length) ∧
    (∀ (pre suf : List (Except String MatchOutcome)) (e : String),
      (∀ r ∈ pre, r.isOk = true) →
      calculateMatchesRun (pre ++ Except.error e :: suf) = Except.error e) := by
  constructor
  · intro records
    have h := importStep_foldl_spec records
      { totalFetched := records.length, importedCount := 0, updatedCount := 0,
        failedCount := 0, skippedCount := 0, imagesDownloaded := 0, errors := [] }
    simpa [importRecipesRun] using h
  · intro pre suf e h
    exact calcLoop_error e suf pre _ h

/-- C3 (witness): the amended statement applied to a two-record run whose
first record succeeds. -/
theorem import_collects_errors_match_run_aborts_witness :
    (∀ r ∈ [Except.ok { matchPercentage := 0, usesExpiringItems := false }],
      Except.isOk (ε := String) (α := MatchOutcome) r = true) ∧
    calculateMatchesRun
      ([Except.ok { matchPercentage := 0, usesExpiringItems := false }]
        ++ Except.error ("boom") :: []) = Except.error ("boom") :=
  ⟨by intro r hr; simp at hr; simp [hr, Except.isOk, Except.toBool],
    import_collects_errors_match_run_aborts.2
      [Except.ok { matchPercentage := 0, usesExpiringItems := false }] [] ("boom")
      (by intro r hr; simp at hr; simp [hr, Except.isOk, Except.toBool])⟩

/-! ## C4: helper lemmas for the deduplication pass -/

/-- Membership in the rows of a key. -/
theorem mem_rowsWithKey (rs : List RecipeRow) (k : String × String) (r : RecipeRow) :
    r ∈ rowsWithKey rs k ↔ r ∈ rs ∧ keyOf r = some k := by
  simp [rowsWithKey, List.mem_filter]

/-- Sorting does not change the rows of a group. -/
theorem mem_sortedGroup (rs : List RecipeRow) (k : String × String) (r : RecipeRow) :
    r ∈ sortedGroup rs k ↔ r ∈ rs ∧ keyOf r = some k := by
  rw [← mem_rowsWithKey]
  exact (List.perm_insertionSort createdLE (rowsWithKey rs k)).mem_iff

/-- The head of a sorted group has minimal `created_at` in the group. -/
theorem sortedGroup_head_min (rs : List RecipeRow) (k : String × String) (keep : RecipeRow)
    (dels : List RecipeRow) (h : sortedGroup rs k = keep :: dels) :
    ∀ r ∈ sortedGroup rs k, keep.createdAt ≤ r.createdAt := by
  have hs : List.Sorted createdLE (sortedGroup rs k) :=
    List.sorted_insertionSort createdLE (rowsWithKey rs k)
  rw [h] at hs ⊢
  intro r hr
  rcases List.mem_cons.mp hr with hxr | hxr
  · exact hxr ▸ Nat.le_refl _
  · exact List.rel_of_sorted_cons hs r hxr

/-- With globally distinct row ids, the id list of a sorted group has no
duplicates. -/
theorem sortedGroup_rid_nodup (rs : List RecipeRow)
    (hids : (rs.map RecipeRow.rid).Nodup) (k : String × String) :
    ((sortedGroup rs k).map RecipeRow.rid).Nodup := by
  have h1 : ((rowsWithKey rs k).map RecipeRow.rid).Nodup := by
    have hsub : List.Sublist ((rowsWithKey rs k).map RecipeRow.rid) (rs.map RecipeRow.rid) :=
      (List.filter_sublist rs).map RecipeRow.rid
    exact hids.sublist hsub
  exact (((List.perm_insertionSort createdLE (rowsWithKey rs k)).map RecipeRow.rid).symm.nodup) h1

/-- Rows with equal ids are equal when the id column is duplicate-free. -/
theorem row_eq_of_rid_eq (rs : List RecipeRow) (hids : (rs.map RecipeRow.rid).Nodup)
    (a b : RecipeRow) (ha : a ∈ rs) (hb : b ∈ rs) (hr : a.rid = b.rid) : a = b :=
  List.inj_on_of_nodup_map hids ha hb hr

/-- The duplicated keys are duplicate-free. -/
theorem dupKeys_nodup (rs : List RecipeRow) : (dupKeys rs).Nodup :=
  (rs.filterMap keyOf).nodup_dedup.filter _

/-- A key whose sorted group has at least two rows is one of the
duplicated keys. -/
theorem mem_dupKeys_of_two (rs : List RecipeRow) (k : String × String)
    (keep d : RecipeRow) (dels : List RecipeRow)
    (h : sortedGroup rs k = keep :: d :: dels) : k ∈ dupKeys rs := by
  have hkeep : keep ∈ sortedGroup rs k := by rw [h]; exact List.mem_cons_self _ _
  rw [mem_sortedGroup] at hkeep
  have hlen : (rowsWithKey rs k).length = (sortedGroup rs k).length :=
    ((List.perm_insertionSort createdLE (rowsWithKey rs k)).length_eq).symm
  simp only [dupKeys, List.mem_filter, List.mem_dedup, List.mem_filterMap]
  refine ⟨⟨keep, hkeep.1, hkeep.2⟩, ?_⟩
  rw [decide_eq_true_eq, hlen, h]
  simp

/-- The ids of a group are ids of rows carrying the group's key. -/
theorem mem_group_rid (rs : List RecipeRow) (k : String × String) (x : Nat) :
    x ∈ (sortedGroup rs k).map RecipeRow.rid ↔
      ∃ r ∈ rs, keyOf r = some k ∧ r.rid = x := by
  simp only [List.mem_map, mem_sortedGroup]
  constructor
  · rintro ⟨r, ⟨hr, hk⟩, hx⟩
    exact ⟨r, hr, hk, hx⟩
  · rintro ⟨r, hr, hk, hx⟩
    exact ⟨r, ⟨hr, hk⟩, hx⟩

/-- Distinct dedup groups have disjoint id sets. -/
theorem dupGroups_disjoint (rs : List RecipeRow) (hids : (rs.map RecipeRow.rid).Nodup) :
    List.Pairwise (fun g1 g2 => ∀ x ∈ g1, x ∉ g2) (dupGroups rs) := by
  rw [dupGroups, List.pairwise_map]
  refine (dupKeys_nodup rs).imp ?_
  intro k1 k2 hne x hx1 hx2
  rw [mem_group_rid] at hx1 hx2
  obtain ⟨r1, hr1, hk1, hrid1⟩ := hx1
  obtain ⟨r2, hr2, hk2, hrid2⟩ := hx2
  have := row_eq_of_rid_eq rs hids r1 r2 hr1 hr2 (hrid1.trans hrid2.symm)
  rw [this, hk2] at hk1
  exact hne (Option.some.injEq .. ▸ hk1 ▸ rfl)

/-- Membership after deleting a list of ids. -/
theorem mem_deleteRecipes (dels : List Nat) :
    ∀ (rs : List RecipeRow) (r : RecipeRow),
      r ∈ deleteRecipes rs dels ↔ r ∈ rs ∧ r.rid ∉ dels := by
  induction dels with
  | nil => intro rs r; simp [deleteRecipes]
  | cons d ds ih =>
    intro rs r
    rw [show deleteRecipes rs (d :: ds)
        = deleteRecipes (rs.filter (fun r => decide (¬r.rid = d))) ds from rfl, ih]
    simp only [List.mem_filter, decide_eq_true_eq, List.mem_cons]
    constructor
    · rintro ⟨⟨hr, hd⟩, hds⟩
      exact ⟨hr, by rintro (h | h) <;> [exact hd h; exact hds h]⟩
    · rintro ⟨hr, hnot⟩
      exact ⟨⟨hr, fun h => hnot (Or.inl h)⟩, fun h => hnot (Or.inr h)⟩

/-- Membership in the recipes table after the whole pass: a row survives
iff its id is in no group tail. -/
theorem mem_recipes_after (gs : List (List Nat)) :
    ∀ (rs : List RecipeRow) (r : RecipeRow),
      r ∈ gs.foldl (fun rs g => deleteRecipes rs (g.drop 1)) rs ↔
        r ∈ rs ∧ ∀ g ∈ gs, r.rid ∉ g.drop 1 := by
  induction gs with
  | nil => intro rs r; simp
  | cons g gs ih =>
    intro rs r
    rw [List.foldl_cons, ih, mem_deleteRecipes]
    constructor
    · rintro ⟨⟨hr, hg⟩, hgs⟩
      refine ⟨hr, ?_⟩
      intro g' hg'
      rcases List.mem_cons.mp hg' with h | h
      · exact h ▸ hg
      · exact hgs g' h
    · rintro ⟨hr, hall⟩
      exact ⟨⟨hr, hall g (List.mem_cons_self _ _)⟩,
        fun g' hg' => hall g' (List.mem_cons_of_mem _ hg')⟩

/-- The inner insert loop of `rehome` only appends rows. -/
theorem rehome_fold_mono (keepId : Nat) (movers : List PrefRow) :
    ∀ (acc : List PrefRow) (q : PrefRow), q ∈ acc →
      q ∈ movers.foldl
        (fun acc m =>
          if acc.any (fun q => decide (q.userId = m.userId) && decide (q.recipeId = keepId))
          then acc else acc ++ [{ m with recipeId := keepId }]) acc := by
  induction movers with
  | nil => intro acc q hq; exact hq
  | cons m ms ih =>
    intro acc q hq
    rw [List.foldl_cons]
    apply ih
    by_cases hc : acc.any
        (fun q => decide (q.userId = m.userId) && decide (q.recipeId = keepId)) = true
    · rw [if_pos hc]; exact hq
    · rw [if_neg hc]; exact List.mem_append_left _ hq

/-- Provenance of rows produced by the inner insert loop. -/
theorem rehome_fold_src (keepId : Nat) (movers : List PrefRow) :
    ∀ (acc : List PrefRow) (q : PrefRow),
      q ∈ movers.foldl
        (fun acc m =>
          if acc.any (fun q => decide (q.userId = m.userId) && decide (q.recipeId = keepId))
          then acc else acc ++ [{ m with recipeId := keepId }]) acc →
      q ∈ acc ∨ ∃ m ∈ movers, q = { m with recipeId := keepId } := by
  induction movers with
  | nil => intro acc q hq; exact Or.inl hq
  | cons m ms ih =>
    intro acc q hq
    rw [List.foldl_cons] at hq
    rcases ih _ q hq with h | ⟨m', hm', hq'⟩
    · by_cases hc : acc.any
          (fun q => decide (q.userId = m.userId) && decide (q.recipeId = keepId)) = true
      · rw [if_pos hc] at h
        exact Or.inl h
      · rw [if_neg hc] at h
        rcases List.mem_append.mp h with h | h
        · exact Or.inl h
        · exact Or.inr ⟨m, List.mem_cons_self _ _, List.mem_singleton.mp h⟩
    · exact Or.inr ⟨m', List.mem_cons_of_mem _ hm', hq'⟩

/-- Every mover ends up represented on the kept recipe by the inner
insert loop: its own copy, or a pre-existing row for the same user. -/
theorem rehome_fold_haskey (keepId : Nat) (movers : List PrefRow) :
    ∀ (acc : List PrefRow) (m : PrefRow), m ∈ movers →
      (∃ q ∈ movers.foldl
        (fun acc m =>
          if acc.any (fun q => decide (q.userId = m.userId) && decide (q.recipeId = keepId))
          then acc else acc ++ [{ m with recipeId := keepId }]) acc,
        q.userId = m.userId ∧ q.recipeId = keepId) := by
  induction movers with
  | nil => intro acc m hm; cases hm
  | cons m0 ms ih =>
    intro acc m hm
    rcases List.mem_cons.mp hm with rfl | hm'
    · rw [List.foldl_cons]
      by_cases hc : acc.any
          (fun q => decide (q.userId = m.userId) && decide (q.recipeId = keepId)) = true
      · rw [if_pos hc]
        obtain ⟨q, hq, hq2⟩ := List.any_eq_true.mp hc
        rw [Bool.and_eq_true, decide_eq_true_eq, decide_eq_true_eq] at hq2
        exact ⟨q, rehome_fold_mono keepId ms acc q hq, hq2⟩
      · rw [if_neg hc]
        refine ⟨{ m with recipeId := keepId }, ?_, rfl, rfl⟩
        exact rehome_fold_mono keepId ms _ _ (List.mem_append_right _ (List.mem_singleton_self _))
    · exact ih _ m hm'

/-- The inner insert loop preserves the `(user_id, recipe_id)`
uniqueness invariant. -/
theorem rehome_fold_unique (keepId : Nat) (movers : List PrefRow) :
    ∀ (acc : List PrefRow),
      (acc.map (fun p => (p.userId, p.recipeId))).Nodup →
      ((movers.foldl
        (fun acc m =>
          if acc.any (fun q => decide (q.userId = m.userId) && decide (q.recipeId = keepId))
          then acc else acc ++ [{ m with recipeId := keepId }]) acc).map
            (fun p => (p.userId, p.recipeId))).Nodup := by
  induction movers with
  | nil => intro acc h; exact h
  | cons m ms ih =>
    intro acc h
    rw [List.foldl_cons]
    apply ih
    by_cases hc : acc.any
        (fun q => decide (q.userId = m.userId) && decide (q.recipeId = keepId)) = true
    · rw [if_pos hc]; exact h
    · rw [if_neg hc]
      rw [List.map_append, List.map_singleton]
      rw [List.nodup_append]
      refine ⟨h, List.nodup_singleton _, ?_⟩
      intro a ha hb
      rw [List.mem_singleton] at hb
      rw [List.mem_map] at ha
      obtain ⟨p, hp, hpa⟩ := ha
      rw [List.any_eq_true] at hc
      apply hc
      refine ⟨p, hp, ?_⟩
      rw [Bool.and_eq_true, decide_eq_true_eq, decide_eq_true_eq]
      rw [hb] at hpa
      exact ⟨congrArg Prod.fst hpa, congrArg Prod.snd hpa⟩

/-- After re-homing, no preference points at the deleted recipe. -/
theorem rehome_no_del (ps : List PrefRow) (d k : Nat) (q : PrefRow)
    (hq : q ∈ rehome ps d k) : ¬q.recipeId = d := by
  have := List.of_mem_filter hq
  rwa [decide_eq_true_eq] at this

/-- A preference not pointing at the deleted recipe survives re-homing. -/
theorem rehome_mem_of (ps : List PrefRow) (d k : Nat) (q : PrefRow)
    (hq : q ∈ ps) (hne : ¬q.recipeId = d) : q ∈ rehome ps d k := by
  apply List.mem_filter.mpr
  refine ⟨rehome_fold_mono k _ ps q hq, ?_⟩
  rw [decide_eq_true_eq]
  exact hne

/-- Provenance: a row of the re-homed table is an old row (off the
deleted recipe), or a copy on the kept recipe of an old row of the
deleted recipe. -/
theorem rehome_src (ps : List PrefRow) (d k : Nat) (q : PrefRow)
    (hq : q ∈ rehome ps d k) :
    (q ∈ ps ∧ ¬q.recipeId = d) ∨
      (q.recipeId = k ∧ ∃ m ∈ ps, m.recipeId = d ∧ q.userId = m.userId) := by
  have hne := rehome_no_del ps d k q hq
  have hq' := List.mem_of_mem_filter hq
  rcases rehome_fold_src k _ ps q hq' with h | ⟨m, hm, rfl⟩
  · exact Or.inl ⟨h, hne⟩
  · have hm' := List.mem_filter.mp hm
    rw [decide_eq_true_eq] at hm'
    exact Or.inr ⟨rfl, m, hm'.1, hm'.2, rfl⟩

/-- Re-homing gives every preference of the deleted recipe a
representative on the kept recipe. -/
theorem rehome_haskey (ps : List PrefRow) (d k : Nat) (m : PrefRow)
    (hm : m ∈ ps) (hd : m.recipeId = d) (hkd : ¬k = d) :
    HasPref (rehome ps d k) m.userId k := by
  have hmov : m ∈ ps.filter (fun p => decide (p.recipeId = d)) :=
    List.mem_filter.mpr ⟨hm, by rw [decide_eq_true_eq]; exact hd⟩
  obtain ⟨q, hq, hq1, hq2⟩ := rehome_fold_haskey k _ ps m hmov
  refine ⟨q, ?_, hq1, hq2⟩
  apply List.mem_filter.mpr
  refine ⟨hq, ?_⟩
  rw [decide_eq_true_eq, hq2]
  exact hkd

/-- An existing user/recipe pair off the deleted recipe survives
re-homing. -/
theorem rehome_haskey_pres (ps : List PrefRow) (d k : Nat) (u x : Nat)
    (h : HasPref ps u x) (hxd : ¬x = d) : HasPref (rehome ps d k) u x := by
  obtain ⟨q, hq, hq1, hq2⟩ := h
  exact ⟨q, rehome_mem_of ps d k q hq (by rw [hq2]; exact hxd), hq1, hq2⟩

/-- Re-homing preserves the uniqueness invariant. -/
theorem rehome_unique (ps : List PrefRow) (d k : Nat) (h : prefsUnique ps) :
    prefsUnique (rehome ps d k) := by
  have h1 := rehome_fold_unique k (ps.filter (fun p => decide (p.recipeId = d))) ps h
  have hsub : List.Sublist
      ((rehome ps d k).map (fun p => (p.userId, p.recipeId)))
      (((ps.filter (fun p => decide (p.recipeId = d))).foldl
        (fun acc m =>
          if acc.any (fun q => decide (q.userId = m.userId) && decide (q.recipeId = k))
          then acc else acc ++ [{ m with recipeId := k }]) ps).map
            (fun p => (p.userId, p.recipeId))) :=
    (List.filter_sublist _).map _
  exact h1.sublist hsub

/-- No preference with a given recipe id appears after re-homing onto a
different recipe, provided none appeared before. -/
theorem rehome_noneAt (ps : List PrefRow) (d' k x : Nat) (hkx : ¬k = x)
    (h : ∀ q ∈ ps, ¬q.recipeId = x) : ∀ q ∈ rehome ps d' k, ¬q.recipeId = x := by
  intro q hq
  rcases rehome_src ps d' k q hq with ⟨hq', _⟩ | ⟨hq', _⟩
  · exact h q hq'
  · rw [hq']
    exact hkx

/-- Preferences off the deleted ids survive a group's re-homing fold. -/
theorem foldl_rehome_mem (k : Nat) (ds : List Nat) :
    ∀ (a : List PrefRow) (p : PrefRow), p ∈ a → p.recipeId ∉ ds →
      p ∈ ds.foldl (fun a d => rehome a d k) a := by
  induction ds with
  | nil => intro a p hp _; exact hp
  | cons d ds ih =>
    intro a p hp hnot
    rw [List.foldl_cons]
    refine ih _ p ?_ (fun h => hnot (List.mem_cons_of_mem _ h))
    exact rehome_mem_of a d k p hp (fun h => hnot (h ▸ List.mem_cons_self _ _))

/-- A user/recipe pair off the deleted ids survives a group's re-homing
fold. -/
theorem foldl_rehome_haskey_pres (k : Nat) (ds : List Nat) :
    ∀ (a : List PrefRow) (u x : Nat), HasPref a u x → x ∉ ds →
      HasPref (ds.foldl (fun a d => rehome a d k) a) u x := by
  induction ds with
  | nil => intro a u x h _; exact h
  | cons d ds ih =>
    intro a u x h hnot
    rw [List.foldl_cons]
    refine ih _ u x ?_ (fun hc => hnot (List.mem_cons_of_mem _ hc))
    exact rehome_haskey_pres a d k u x h (fun hc => hnot (hc ▸ List.mem_cons_self _ _))

/-- Absence of a recipe id is preserved by a group's re-homing fold when
the kept id differs. -/
theorem foldl_rehome_noneAt (k x : Nat) (hkx : ¬k = x) (ds : List Nat) :
    ∀ (a : List PrefRow), (∀ q ∈ a, ¬q.recipeId = x) →
      ∀ q ∈ ds.foldl (fun a d => rehome a d k) a, ¬q.recipeId = x := by
  induction ds with
  | nil => intro a h; exact h
  | cons d ds ih =>
    intro a h
    rw [List.foldl_cons]
    exact ih _ (rehome_noneAt a d k x hkx h)

/-- The group fold preserves the uniqueness invariant. -/
theorem foldl_rehome_unique (k : Nat) (ds : List Nat) :
    ∀ (a : List PrefRow), prefsUnique a →
      prefsUnique (ds.foldl (fun a d => rehome a d k) a) := by
  induction ds with
  | nil => intro a h; exact h
  | cons d ds ih =>
    intro a h
    rw [List.foldl_cons]
    exact ih _ (rehome_unique a d k h)

/-- After processing a group, no preference points at any deleted id of
the group. -/
theorem applyGroupPrefs_noneAt (g : List Nat) (hnd : g.Nodup) (x : Nat)
    (hx : x ∈ g.drop 1) :
    ∀ (a : List PrefRow), ∀ q ∈ applyGroupPrefs a g, ¬q.recipeId = x := by
  cases g with
  | nil => cases hx
  | cons keep ds =>
    intro a q hq
    rw [List.drop_one, List.tail_cons] at hx
    have hkeep : keep ∉ ds := (List.nodup_cons.mp hnd).1
    have hkx : ¬keep = x := fun h => hkeep (h ▸ hx)
    obtain ⟨ds1, ds2, rfl⟩ := List.append_of_mem hx
    rw [show applyGroupPrefs a (keep :: (ds1 ++ x :: ds2))
        = (x :: ds2).foldl (fun a d => rehome a d keep)
            (ds1.foldl (fun a d => rehome a d keep) a) from by
      simp [applyGroupPrefs, List.foldl_append]] at hq
    rw [List.foldl_cons] at hq
    refine foldl_rehome_noneAt keep x hkx ds2 _ ?_ q hq
    intro q' hq'
    exact rehome_no_del _ x keep q' hq'

/-- Processing a group whose ids avoid `x` preserves absence of `x`. -/
theorem applyGroupPrefs_noneAt_pres (g : List Nat) (x : Nat) (hx : x ∉ g) :
    ∀ (a : List PrefRow), (∀ q ∈ a, ¬q.recipeId = x) →
      ∀ q ∈ applyGroupPrefs a g, ¬q.recipeId = x := by
  cases g with
  | nil => intro a h; exact h
  | cons keep ds =>
    intro a h
    exact foldl_rehome_noneAt keep x
      (fun hc => hx (hc ▸ List.mem_cons_self _ _)) ds a h

/-- A preference whose recipe id is not deleted by the group survives. -/
theorem applyGroupPrefs_mem (g : List Nat) (p : PrefRow) (hp : p.recipeId ∉ g.drop 1) :
    ∀ (a : List PrefRow), p ∈ a → p ∈ applyGroupPrefs a g := by
  cases g with
  | nil => intro a hpa; exact hpa
  | cons keep ds =>
    intro a hpa
    rw [List.drop_one, List.tail_cons] at hp
    exact foldl_rehome_mem keep ds a p hpa hp

/-- A user/recipe pair whose recipe id is not deleted by the group
survives. -/
theorem applyGroupPrefs_haskey_pres (g : List Nat) (u x : Nat) (hx : x ∉ g.drop 1) :
    ∀ (a : List PrefRow), HasPref a u x → HasPref (applyGroupPrefs a g) u x := by
  cases g with
  | nil => intro a h; exact h
  | cons keep ds =>
    intro a h
    rw [List.drop_one, List.tail_cons] at hx
    exact foldl_rehome_haskey_pres keep ds a u x h hx

/-- Processing a group gives every preference of one of its deleted
recipes a representative on the kept recipe. -/
theorem applyGroupPrefs_haskey (keep : Nat) (ds : List Nat) (hnd : (keep :: ds).Nodup)
    (p : PrefRow) (hd : p.recipeId ∈ ds) :
    ∀ (a : List PrefRow), p ∈ a →
      HasPref (applyGroupPrefs a (keep :: ds)) p.userId keep := by
  have hkeep : keep ∉ ds := (List.nodup_cons.mp hnd).1
  have hndds : ds.Nodup := (List.nodup_cons.mp hnd).2
  obtain ⟨ds1, ds2, rfl⟩ := List.append_of_mem hd
  have hkeep2 : keep ∉ ds2 := fun h => hkeep (List.mem_append_right _ (List.mem_cons_of_mem _ h))
  have hpd1 : p.recipeId ∉ ds1 := by
    intro h
    exact (List.nodup_append.mp hndds).2.2 h (List.mem_cons_self _ _)
  intro a hpa
  rw [show applyGroupPrefs a (keep :: (ds1 ++ p.recipeId :: ds2))
      = (p.recipeId :: ds2).foldl (fun a d => rehome a d keep)
          (ds1.foldl (fun a d => rehome a d keep) a) from by
    simp [applyGroupPrefs, List.foldl_append]]
  rw [List.foldl_cons]
  refine foldl_rehome_haskey_pres keep ds2 _ _ _ ?_ hkeep2
  refine rehome_haskey _ p.recipeId keep p ?_ rfl
    (fun h => hkeep (List.mem_append_right _ (h ▸ List.mem_cons_self _ _)))
  exact foldl_rehome_mem keep ds1 a p hpa hpd1

/-- A preference survives a run over groups none of which delete its
recipe. -/
theorem foldl_groups_mem (gs : List (List Nat)) :
    ∀ (a : List PrefRow) (p : PrefRow), p ∈ a →
      (∀ g ∈ gs, p.recipeId ∉ g.drop 1) → p ∈ gs.foldl applyGroupPrefs a := by
  induction gs with
  | nil => intro a p hp _; exact hp
  | cons g gs ih =>
    intro a p hp hall
    rw [List.foldl_cons]
    exact ih _ p (applyGroupPrefs_mem g p (hall g (List.mem_cons_self _ _)) a hp)
      (fun g' hg' => hall g' (List.mem_cons_of_mem _ hg'))

/-- A user/recipe pair survives a run over groups none of which delete
its recipe. -/
theorem foldl_groups_haskey_pres (gs : List (List Nat)) :
    ∀ (a : List PrefRow) (u x : Nat), HasPref a u x →
      (∀ g ∈ gs, x ∉ g.drop 1) → HasPref (gs.foldl applyGroupPrefs a) u x := by
  induction gs with
  | nil => intro a u x h _; exact h
  | cons g gs ih =>
    intro a u x h hall
    rw [List.foldl_cons]
    exact ih _ u x (applyGroupPrefs_haskey_pres g u x (hall g (List.mem_cons_self _ _)) a h)
      (fun g' hg' => hall g' (List.mem_cons_of_mem _ hg'))

/-- Absence of a recipe id is preserved by a run over groups that avoid
that id. -/
theorem foldl_groups_noneAt (gs : List (List Nat)) :
    ∀ (a : List PrefRow) (x : Nat), (∀ q ∈ a, ¬q.recipeId = x) →
      (∀ g ∈ gs, x ∉ g) →
      ∀ q ∈ gs.foldl applyGroupPrefs a, ¬q.recipeId = x := by
  induction gs with
  | nil => intro a x h _; exact h
  | cons g gs ih =>
    intro a x h hall
    rw [List.foldl_cons]
    exact ih _ x (applyGroupPrefs_noneAt_pres g x (hall g (List.mem_cons_self _ _)) a h)
      (fun g' hg' => hall g' (List.mem_cons_of_mem _ hg'))

/-- The run over all groups preserves the uniqueness invariant. -/
theorem foldl_groups_unique (gs : List (List Nat)) :
    ∀ (a : List PrefRow), prefsUnique a → prefsUnique (gs.foldl applyGroupPrefs a) := by
  induction gs with
  | nil => intro a h; exact h
  | cons g gs ih =>
    intro a h
    rw [List.foldl_cons]
    refine ih _ ?_
    cases g with
    | nil => exact h
    | cons keep ds => exact foldl_rehome_unique keep ds a h

/-! ## C4: the reconciliation pass -/

/-- C4: starting from a catalog with duplicate-free row ids and a valid
preference uniqueness invariant, the reconciliation pass keeps exactly
one row — one of minimum `created_at` — per held `(provider,
external_id)` key, gives every preference that pointed at a deleted
duplicate a preference of the same user on the kept row, leaves no
preference pointing at a deleted recipe, and preserves the
`(user_id, recipe_id)` uniqueness invariant. -/
theorem dedup_reconciliation (c : Catalog)
    (hids : (c.recipes.map RecipeRow.rid).Nodup)
    (hprefs : prefsUnique c.prefs) :
    DedupSpec c := by
  have hGdisj := dupGroups_disjoint c.recipes hids
  have hRec : (runDedup c).recipes
      = (dupGroups c.recipes).foldl (fun rs g => deleteRecipes rs (g.drop 1)) c.recipes := rfl
  have hPrf : (runDedup c).prefs = (dupGroups c.recipes).foldl applyGroupPrefs c.prefs := rfl
  refine ⟨?_, ?_, ?_, ?_⟩
  · -- part 1: exactly the oldest row of each key survives
    intro k keep hhead
    obtain ⟨dels, hsg⟩ : ∃ dels, sortedGroup c.recipes k = keep :: dels := by
      cases hsg : sortedGroup c.recipes k with
      | nil => rw [hsg] at hhead; cases hhead
      | cons a t =>
        rw [hsg, List.head?_cons, Option.some.injEq] at hhead
        refine ⟨t, ?_⟩
        rw [← hhead]
    have hkeepmem : keep ∈ c.recipes ∧ keyOf keep = some k :=
      (mem_sortedGroup _ k keep).mp (hsg ▸ List.mem_cons_self _ _)
    have hkeepsurv : ∀ g ∈ dupGroups c.recipes, keep.rid ∉ g.drop 1 := by
      intro g hg hmem
      simp only [dupGroups, List.mem_map] at hg
      obtain ⟨k', hk', rfl⟩ := hg
      have hmem' : keep.rid ∈ (sortedGroup c.recipes k').map RecipeRow.rid :=
        List.mem_of_mem_drop hmem
      rw [mem_group_rid] at hmem'
      obtain ⟨r, hr, hkr, hrid⟩ := hmem'
      have hrk : r = keep := row_eq_of_rid_eq c.recipes hids r keep hr hkeepmem.1 hrid
      subst hrk
      rw [hkeepmem.2, Option.some.injEq] at hkr
      subst hkr
      have hnd := sortedGroup_rid_nodup c.recipes hids k
      rw [hsg, List.map_cons] at hnd hmem
      rw [List.drop_one, List.tail_cons] at hmem
      exact (List.nodup_cons.mp hnd).1 hmem
    refine ⟨?_, ?_, ?_⟩
    · rw [hRec, mem_recipes_after]
      exact ⟨hkeepmem.1, hkeepsurv⟩
    · intro r hr hkr
      rw [hRec, mem_recipes_after] at hr
      have hrsg : r ∈ sortedGroup c.recipes k := (mem_sortedGroup _ k r).mpr ⟨hr.1, hkr⟩
      rw [hsg] at hrsg
      rcases List.mem_cons.mp hrsg with h | h
      · exact h
      · exfalso
        obtain ⟨d0, ds, rfl⟩ : ∃ d0 ds, dels = d0 :: ds := by
          cases dels with
          | nil => cases h
          | cons d0 ds => exact ⟨d0, ds, rfl⟩
        have hk : k ∈ dupKeys c.recipes := mem_dupKeys_of_two c.recipes k keep d0 ds hsg
        have hg : (sortedGroup c.recipes k).map RecipeRow.rid ∈ dupGroups c.recipes := by
          simp only [dupGroups, List.mem_map]
          exact ⟨k, hk, rfl⟩
        refine hr.2 _ hg ?_
        rw [hsg, List.map_cons, List.drop_one, List.tail_cons]
        exact List.mem_map_of_mem RecipeRow.rid h
    · intro r hr hkr
      exact sortedGroup_head_min c.recipes k keep dels hsg r
        ((mem_sortedGroup _ k r).mpr ⟨hr, hkr⟩)
  · -- part 2: preferences of deleted duplicates are re-homed
    intro k keep dels hsg p hp ⟨d, hd, hpd⟩
    obtain ⟨d0, ds, rfl⟩ : ∃ d0 ds, dels = d0 :: ds := by
      cases dels with
      | nil => cases hd
      | cons d0 ds => exact ⟨d0, ds, rfl⟩
    have hk : k ∈ dupKeys c.recipes := mem_dupKeys_of_two c.recipes k keep d0 ds hsg
    have hg : (sortedGroup c.recipes k).map RecipeRow.rid ∈ dupGroups c.recipes := by
      simp only [dupGroups, List.mem_map]
      exact ⟨k, hk, rfl⟩
    obtain ⟨pre, post, hsplit⟩ := List.append_of_mem hg
    have hnd := sortedGroup_rid_nodup c.recipes hids k
    rw [hsg, List.map_cons] at hnd
    have hpg : p.recipeId ∈ (sortedGroup c.recipes k).map RecipeRow.rid := by
      rw [hsg, List.map_cons]
      exact List.mem_cons_of_mem _ (hpd ▸ List.mem_map_of_mem RecipeRow.rid hd)
    have hkeepg : keep.rid ∈ (sortedGroup c.recipes k).map RecipeRow.rid := by
      rw [hsg, List.map_cons]
      exact List.mem_cons_self _ _
    rw [hPrf, hsplit, List.foldl_append, List.foldl_cons]
    have hdisj := hsplit ▸ hGdisj
    have hpre : ∀ g' ∈ pre, ∀ x ∈ (sortedGroup c.recipes k).map RecipeRow.rid, x ∉ g' := by
      intro g' hg' x hx hxg'
      exact (List.pairwise_append.mp hdisj).2.2 g' hg' _ (List.mem_cons_self _ _) x hxg' hx
    have hpost : ∀ g' ∈ post, ∀ x ∈ (sortedGroup c.recipes k).map RecipeRow.rid, x ∉ g' := by
      intro g' hg' x hx
      have hp2 := (List.pairwise_append.mp hdisj).2.1
      exact (List.pairwise_cons.mp hp2).1 g' hg' x hx
    have hppre : p ∈ pre.foldl applyGroupPrefs c.prefs := by
      refine foldl_groups_mem pre c.prefs p hp ?_
      intro g' hg' hmem
      exact hpre g' hg' p.recipeId hpg (List.mem_of_mem_drop hmem)
    have hstep : HasPref
        (applyGroupPrefs (pre.foldl applyGroupPrefs c.prefs)
          ((sortedGroup c.recipes k).map RecipeRow.rid)) p.userId keep.rid := by
      rw [hsg, List.map_cons]
      refine applyGroupPrefs_haskey keep.rid ((d0 :: ds).map RecipeRow.rid) hnd p ?_ _ hppre
      exact hpd ▸ List.mem_map_of_mem RecipeRow.rid hd
    refine foldl_groups_haskey_pres post _ p.userId keep.rid hstep ?_
    intro g' hg' hmem
    exact hpost g' hg' keep.rid hkeepg (List.mem_of_mem_drop hmem)
  · -- part 3: no surviving preference points at a deleted recipe
    intro p hp k keep dels hsg d hd
    obtain ⟨d0, ds, rfl⟩ : ∃ d0 ds, dels = d0 :: ds := by
      cases dels with
      | nil => cases hd
      | cons d0 ds => exact ⟨d0, ds, rfl⟩
    have hk : k ∈ dupKeys c.recipes := mem_dupKeys_of_two c.recipes k keep d0 ds hsg
    have hg : (sortedGroup c.recipes k).map RecipeRow.rid ∈ dupGroups c.recipes := by
      simp only [dupGroups, List.mem_map]
      exact ⟨k, hk, rfl⟩
    obtain ⟨pre, post, hsplit⟩ := List.append_of_mem hg
    have hnd := sortedGroup_rid_nodup c.recipes hids k
    have hdg : d.rid ∈ ((sortedGroup c.recipes k).map RecipeRow.rid).drop 1 := by
      rw [hsg, List.map_cons, List.drop_one, List.tail_cons]
      exact List.mem_map_of_mem RecipeRow.rid hd
    rw [hPrf, hsplit, List.foldl_append, List.foldl_cons] at hp
    have hdisj := hsplit ▸ hGdisj
    have hstep : ∀ q ∈ applyGroupPrefs (pre.foldl applyGroupPrefs c.prefs)
        ((sortedGroup c.recipes k).map RecipeRow.rid), ¬q.recipeId = d.rid :=
      applyGroupPrefs_noneAt ((sortedGroup c.recipes k).map RecipeRow.rid) hnd d.rid hdg
        (pre.foldl applyGroupPrefs c.prefs)
    refine foldl_groups_noneAt post _ d.rid hstep ?_ p hp
    intro g' hg' hmem
    have hdgfull : d.rid ∈ (sortedGroup c.recipes k).map RecipeRow.rid :=
      List.mem_of_mem_drop hdg
    have hp2 := (List.pairwise_append.mp hdisj).2.1
    exact (List.pairwise_cons.mp hp2).1 g' hg' d.rid hdgfull hmem
  · -- part 4: uniqueness invariant preserved
    rw [hPrf]
    exact foldl_groups_unique _ c.prefs hprefs

/-- C4 (witness): the reconciliation statement applied to the concrete
catalog with one duplicated key. -/
theorem dedup_reconciliation_witness :
    ((sampleCatalog.recipes.map RecipeRow.rid).Nodup ∧ prefsUnique sampleCatalog.prefs) ∧
      DedupSpec sampleCatalog :=
  ⟨⟨by decide, by decide⟩, dedup_reconciliation sampleCatalog (by decide) (by decide)⟩
